import Mathlib

/-!
Verification of the RAG-test repository's retrieval-and-answer pipeline.

This file shallowly embeds the Python functions the claims concern:

* `src/chunking.py`   : `split_text` (normalization regexes and windowing loop)
* `src/embeddings.py` : `_cheap_embed` / `embed_text` (offline mode seed)
* `src/db_sqlite.py`  : `insert_chunks`, `fetch_all_vectors`,
                        `generar_codigo_unico`, `extraer_texto_indexar`,
                        `insert_contrato`, `insert_contrato_embeddings`
* `api.py`            : `TRUSTED_PDFS`, `_existing_urls_set`,
                        `_pick_web_candidates`, `_auto_ingest_from_web`,
                        `build_context_for_answer`, `ask_ep`

Python strings are modelled as `List Char`, Python ints as `Nat`/`Int`,
floats that only ever get compared or carried around as `ℚ`.  External
collaborators (the network, numpy's PRNG, the OpenAI client) are modelled as
explicit function parameters, never stubbed to constants.
-/

namespace RAG

/-- A Python string, modelled as its list of characters. -/
abbrev Str := List Char

/-- Python's whitespace class for `str` methods and `\s` (ASCII fragment):
space, tab, newline, carriage return, vertical tab, form feed. -/
def pyIsSpace (c : Char) : Bool :=
  c = ' ' || c = '\t' || c = '\n' || c = '\r' || c = Char.ofNat 11 || c = Char.ofNat 12

/-- Python `str.strip()`, left part: drop leading whitespace. -/
def lstrip (s : Str) : Str := s.dropWhile pyIsSpace

/-- Python `str.strip()`, right part: drop trailing whitespace. -/
def rstrip (s : Str) : Str := (s.reverse.dropWhile pyIsSpace).reverse

/-- Python `str.strip()`: drop leading and trailing whitespace. -/
def pyStrip (s : Str) : Str := rstrip (lstrip s)

/-- Every character of `s` is whitespace (so `s` is empty or entirely
whitespace). -/
def allWs (s : Str) : Prop := ∀ c ∈ s, pyIsSpace c = true

instance (s : Str) : Decidable (allWs s) := by
  unfold allWs; infer_instance

/-- The substitution `re.sub(r"\s+\n", "\n", text)` from `split_text` (src/chunking.py line 8).

The pattern `\s+\n` matches a run of one or more whitespace characters
followed by a newline; `re.sub` replaces each leftmost, greedy,
non-overlapping match by a single `"\n"`.  A greedy match starting at a
whitespace character extends to the *last* newline of the maximal whitespace
run beginning there (provided that newline is not the run's first character),
and that final newline is exactly what the replacement re-inserts.  Hence,
character by character: a whitespace character is consumed by some match—and
so disappears—iff a newline occurs later in the string with only whitespace
in between; every other character is kept unchanged.  (This characterization
was checked exhaustively against CPython's `re.sub` on random inputs.) -/
def subWsNewline : Str → Str
  | [] => []
  | c :: rest =>
      if pyIsSpace c && (rest.takeWhile pyIsSpace).contains '\n' then
        subWsNewline rest
      else
        c :: subWsNewline rest

/-- Whether a string begins with two newlines. -/
def startsTwoNl : Str → Bool
  | '\n' :: '\n' :: _ => true
  | _ => false

/-- The substitution `re.sub(r"\n{3,}", "\n\n", text)` from `split_text` (src/chunking.py
line 9): each maximal run of three or more newlines is replaced by two
newlines.  Character by character: a newline is dropped iff it is followed
immediately by two more newlines (i.e. it is not among the last two of its
run); every other character is kept. -/
def subManyNewlines : Str → Str
  | [] => []
  | c :: rest =>
      if c = '\n' && startsTwoNl rest then
        subManyNewlines rest
      else
        c :: subManyNewlines rest

/-- The pre-split normalization of `split_text`: first `\s+\n → \n`, then
`\n{3,} → \n\n`, in the source's order (src/chunking.py lines 8–9). -/
def normalizeText (s : Str) : Str := subManyNewlines (subWsNewline s)

/-- State of the `while` loop of `split_text`: the window start `i` and the
accumulated `parts`. -/
structure SplitState where
  i : Nat
  parts : List Str
deriving DecidableEq

/-- One iteration of the `while i < len(text)` loop of `split_text`
(src/chunking.py lines 13–20), acting on the normalized text:
`j = min(len(text), i + max_chars)`, `chunk = text[i:j].strip()`, append the
chunk if non-empty, `break` when `j >= len(text)`, else
`i = max(0, j - overlap)` (truncated subtraction on `Nat` is exactly
`max(0, ·)`).  `Sum.inl` is the loop finishing with the final `parts`,
`Sum.inr` the next state. -/
def splitStep (text : Str) (maxChars overlap : Nat) (st : SplitState) :
    List Str ⊕ SplitState :=
  if st.i < text.length then
    let j := min text.length (st.i + maxChars)
    let chunk := pyStrip ((text.drop st.i).take (j - st.i))
    let parts' := if chunk.isEmpty then st.parts else st.parts ++ [chunk]
    if text.length ≤ j then Sum.inl parts'
    else Sum.inr ⟨j - overlap, parts'⟩
  else Sum.inl st.parts

/-- Run the `split_text` loop for at most `fuel` iterations; `none` means the
fuel ran out before the loop finished. -/
def splitIter (text : Str) (maxChars overlap : Nat) :
    Nat → SplitState → Option (List Str)
  | 0, _ => none
  | fuel + 1, st =>
      match splitStep text maxChars overlap st with
      | Sum.inl parts => some parts
      | Sum.inr st' => splitIter text maxChars overlap fuel st'

/-- Running `split_text(text, max_chars, overlap)` within `fuel` loop
iterations with a given result: the empty-input early return
(src/chunking.py lines 6–7), then the loop over the normalized text from
`i = 0`, then the final `[p for p in parts if p]` filter (line 22). -/
def splitRun (text : Str) (maxChars overlap fuel : Nat) : Option (List Str) :=
  if text.isEmpty then some []
  else
    (splitIter (normalizeText text) maxChars overlap fuel ⟨0, []⟩).map
      (fun parts => parts.filter (fun p => !p.isEmpty))

/-- Proposition: `split_text(text, max_chars, overlap)` returns `res`: some number of loop
iterations suffices.  A diverging call is related to no result. -/
def splitRel (text : Str) (maxChars overlap : Nat) (res : List Str) : Prop :=
  ∃ fuel, splitRun text maxChars overlap fuel = some res

/-! ### Basic facts about stripping and the normalization -/

theorem mem_dropWhile_of_mem (c : Char) (l : Str) (hc : c ∈ l)
    (hws : pyIsSpace c = false) : c ∈ l.dropWhile pyIsSpace := by
  induction l with
  | nil => cases hc
  | cons d rest ih =>
    by_cases hd : pyIsSpace d = true
    · rw [List.dropWhile_cons_of_pos hd]
      rcases List.mem_cons.mp hc with h | h
      · subst h; rw [hws] at hd; cases hd
      · exact ih h
    · rw [List.dropWhile_cons_of_neg hd]
      exact hc

theorem mem_pyStrip_of_mem (c : Char) (l : Str) (hc : c ∈ l)
    (hws : pyIsSpace c = false) : c ∈ pyStrip l := by
  unfold pyStrip rstrip lstrip
  rw [List.mem_reverse]
  exact mem_dropWhile_of_mem c _ (List.mem_reverse.mpr
    (mem_dropWhile_of_mem c l hc hws)) hws

theorem pyStrip_eq_nil_of_allWs (l : Str) (h : allWs l) : pyStrip l = [] := by
  unfold pyStrip lstrip
  rw [List.dropWhile_eq_nil_iff.mpr (fun x hx => h x hx)]
  rfl

theorem allWs_of_pyStrip_eq_nil (l : Str) (h : pyStrip l = []) : allWs l := by
  intro c hc
  by_contra hnot
  have : c ∈ pyStrip l :=
    mem_pyStrip_of_mem c l hc (Bool.not_eq_true _ ▸ hnot)
  rw [h] at this
  cases this

theorem pyStrip_length_le (l : Str) : (pyStrip l).length ≤ l.length := by
  unfold pyStrip rstrip lstrip
  calc ((l.dropWhile pyIsSpace).reverse.dropWhile pyIsSpace).reverse.length
      = ((l.dropWhile pyIsSpace).reverse.dropWhile pyIsSpace).length :=
        List.length_reverse _
    _ ≤ (l.dropWhile pyIsSpace).reverse.length :=
        (List.dropWhile_sublist _).length_le
    _ = (l.dropWhile pyIsSpace).length := List.length_reverse _
    _ ≤ l.length := (List.dropWhile_sublist _).length_le

theorem subWsNewline_sublist (s : Str) : (subWsNewline s).Sublist s := by
  induction s with
  | nil => exact List.Sublist.refl _
  | cons c rest ih =>
    rw [subWsNewline]
    split
    · exact ih.trans (List.sublist_cons_self c rest)
    · exact ih.cons₂ c

theorem subManyNewlines_sublist (s : Str) : (subManyNewlines s).Sublist s := by
  induction s with
  | nil => exact List.Sublist.refl _
  | cons c rest ih =>
    rw [subManyNewlines]
    split
    · exact ih.trans (List.sublist_cons_self c rest)
    · exact ih.cons₂ c

theorem normalizeText_sublist (s : Str) : (normalizeText s).Sublist s :=
  (subManyNewlines_sublist _).trans (subWsNewline_sublist s)

theorem mem_subWsNewline_of_mem (c : Char) (s : Str) (hc : c ∈ s)
    (hws : pyIsSpace c = false) : c ∈ subWsNewline s := by
  induction s with
  | nil => cases hc
  | cons d rest ih =>
    rw [subWsNewline]
    rcases List.mem_cons.mp hc with h | h
    · subst h
      rw [if_neg (by simp [hws])]
      exact List.mem_cons_self _ _
    · split
      · exact ih h
      · exact List.mem_cons_of_mem _ (ih h)

theorem mem_subManyNewlines_of_mem (c : Char) (s : Str) (hc : c ∈ s)
    (hws : pyIsSpace c = false) : c ∈ subManyNewlines s := by
  have hnl : c ≠ '\n' := by
    intro h; subst h; simp [pyIsSpace] at hws
  induction s with
  | nil => cases hc
  | cons d rest ih =>
    rw [subManyNewlines]
    rcases List.mem_cons.mp hc with h | h
    · subst h
      rw [if_neg (by simp [hnl])]
      exact List.mem_cons_self _ _
    · split
      · exact ih h
      · exact List.mem_cons_of_mem _ (ih h)

theorem mem_normalizeText_of_mem (c : Char) (s : Str) (hc : c ∈ s)
    (hws : pyIsSpace c = false) : c ∈ normalizeText s :=
  mem_subManyNewlines_of_mem c _ (mem_subWsNewline_of_mem c s hc hws) hws

theorem allWs_normalizeText (s : Str) (h : allWs s) : allWs (normalizeText s) :=
  fun c hc => h c ((normalizeText_sublist s).mem hc)

/-- In the output of the first substitution, a whitespace character is never
immediately followed by a newline (if it were, the newline would have been
reachable from it through whitespace in the input, so the match would have
consumed it). -/
def NoWsBeforeNl (s : Str) : Prop :=
  s.Chain' (fun a b => pyIsSpace a = false ∨ b ≠ '\n')

theorem head_subWsNewline_ne_nl (rest : Str)
    (h : (rest.takeWhile pyIsSpace).contains '\n' = false) :
    (subWsNewline rest).head? ≠ some '\n' := by
  cases rest with
  | nil => simp [subWsNewline]
  | cons d r =>
    by_cases hd : pyIsSpace d = true
    · rw [List.takeWhile_cons_of_pos hd, List.contains_cons,
        Bool.or_eq_false_iff] at h
      obtain ⟨hd_ne, hr⟩ := h
      rw [subWsNewline,
        if_neg (by rw [hr, Bool.and_false]; exact Bool.false_ne_true)]
      intro hc
      injection hc with hc
      subst hc
      simp at hd_ne
    · have hd' : pyIsSpace d = false := by
        cases hb : pyIsSpace d
        · rfl
        · exact absurd hb hd
      rw [subWsNewline,
        if_neg (by rw [hd', Bool.false_and]; exact Bool.false_ne_true)]
      intro hc
      injection hc with hc
      subst hc
      simp [pyIsSpace] at hd'

theorem noWsBeforeNl_subWsNewline (s : Str) : NoWsBeforeNl (subWsNewline s) := by
  induction s with
  | nil => exact List.chain'_nil
  | cons c rest ih =>
    rw [subWsNewline]
    split
    · exact ih
    · rename_i hcond
      rw [NoWsBeforeNl, List.chain'_cons']
      refine ⟨?_, ih⟩
      intro y hy
      by_cases hc : pyIsSpace c = true
      · right
        intro hynl
        subst hynl
        have hcont : (rest.takeWhile pyIsSpace).contains '\n' = false := by
          cases hcc : (rest.takeWhile pyIsSpace).contains '\n'
          · rfl
          · exact absurd (by rw [hc, hcc]; rfl) hcond
        exact head_subWsNewline_ne_nl rest hcont (Option.mem_def.mp hy)
      · refine Or.inl ?_
        cases hb : pyIsSpace c
        · rfl
        · exact absurd hb hc

theorem head_subManyNewlines_nl (l : Str)
    (h : (subManyNewlines l).head? = some '\n') : l.head? = some '\n' := by
  cases l with
  | nil => rw [subManyNewlines] at h; cases h
  | cons d r =>
    rw [subManyNewlines] at h
    split at h
    · rename_i hcond
      rw [Bool.and_eq_true, decide_eq_true_eq] at hcond
      rw [List.head?_cons, hcond.1]
    · rw [List.head?_cons] at h ⊢
      exact h

theorem noWsBeforeNl_subManyNewlines (l : Str) (h : NoWsBeforeNl l) :
    NoWsBeforeNl (subManyNewlines l) := by
  induction l with
  | nil => exact List.chain'_nil
  | cons d r ih =>
    rw [NoWsBeforeNl, List.chain'_cons'] at h
    obtain ⟨hhead, htail⟩ := h
    rw [subManyNewlines]
    split
    · exact ih htail
    · rw [NoWsBeforeNl, List.chain'_cons']
      refine ⟨?_, ih htail⟩
      intro y hy
      by_cases hynl : y = '\n'
      · subst hynl
        have hr : r.head? = some '\n' :=
          head_subManyNewlines_nl r (Option.mem_def.mp hy)
        exact hhead '\n' (Option.mem_def.mpr hr)
      · exact Or.inr hynl

/-- The normalized text never has a whitespace character immediately before a
newline. -/
theorem noWsBeforeNl_normalizeText (s : Str) : NoWsBeforeNl (normalizeText s) :=
  noWsBeforeNl_subManyNewlines _ (noWsBeforeNl_subWsNewline s)

/-! ### Facts about the `split_text` loop -/

/-- The chunk computed by one loop iteration: `text[i:j].strip()` with
`j = min(len(text), i + max_chars)`. -/
def stepChunk (text : Str) (maxChars : Nat) (st : SplitState) : Str :=
  pyStrip ((text.drop st.i).take (min text.length (st.i + maxChars) - st.i))

/-- The parts list after one loop iteration (the chunk is appended iff it is
non-empty). -/
def stepParts (text : Str) (maxChars : Nat) (st : SplitState) : List Str :=
  if (stepChunk text maxChars st).isEmpty then st.parts
  else st.parts ++ [stepChunk text maxChars st]

theorem splitStep_of_ge (text : Str) (maxChars overlap : Nat) (st : SplitState)
    (hi : text.length ≤ st.i) :
    splitStep text maxChars overlap st = Sum.inl st.parts := by
  rw [splitStep, if_neg (not_lt.mpr hi)]

theorem splitStep_of_break (text : Str) (maxChars overlap : Nat)
    (st : SplitState) (hi : st.i < text.length)
    (hj : text.length ≤ min text.length (st.i + maxChars)) :
    splitStep text maxChars overlap st
      = Sum.inl (stepParts text maxChars st) := by
  rw [splitStep, if_pos hi]
  show (if text.length ≤ min text.length (st.i + maxChars) then _ else _) = _
  rw [if_pos hj]
  rfl

theorem splitStep_of_cont (text : Str) (maxChars overlap : Nat)
    (st : SplitState) (hi : st.i < text.length)
    (hj : min text.length (st.i + maxChars) < text.length) :
    splitStep text maxChars overlap st
      = Sum.inr ⟨min text.length (st.i + maxChars) - overlap,
          stepParts text maxChars st⟩ := by
  rw [splitStep, if_pos hi]
  show (if text.length ≤ min text.length (st.i + maxChars) then _ else _) = _
  rw [if_neg (not_le.mpr hj)]
  rfl

theorem stepChunk_length (text : Str) (maxChars : Nat) (st : SplitState) :
    (stepChunk text maxChars st).length ≤ maxChars := by
  calc (stepChunk text maxChars st).length
      ≤ ((text.drop st.i).take (min text.length (st.i + maxChars) - st.i)).length :=
        pyStrip_length_le _
    _ ≤ min text.length (st.i + maxChars) - st.i := by
        rw [List.length_take]
        exact min_le_left _ _
    _ ≤ maxChars := by omega

theorem splitIter_extends (text : Str) (maxChars overlap : Nat) :
    ∀ (fuel : Nat) (st : SplitState) (res : List Str),
      splitIter text maxChars overlap fuel st = some res →
      ∃ t, res = st.parts ++ t := by
  intro fuel
  induction fuel with
  | zero => intro st res h; cases h
  | succ n ih =>
    intro st res h
    rw [splitIter] at h
    by_cases hi : st.i < text.length
    · by_cases hj : text.length ≤ min text.length (st.i + maxChars)
      · rw [splitStep_of_break text maxChars overlap st hi hj] at h
        have h' : some (stepParts text maxChars st) = some res := h
        injection h' with h'
        rw [← h', stepParts]
        split
        · exact ⟨[], (List.append_nil _).symm⟩
        · exact ⟨[stepChunk text maxChars st], rfl⟩
      · rw [splitStep_of_cont text maxChars overlap st hi (not_le.mp hj)] at h
        have h' : splitIter text maxChars overlap n
            ⟨min text.length (st.i + maxChars) - overlap,
              stepParts text maxChars st⟩ = some res := h
        obtain ⟨t, ht⟩ := ih _ _ h'
        rw [stepParts] at ht
        simp only at ht
        split at ht
        · exact ⟨t, ht⟩
        · refine ⟨stepChunk text maxChars st :: t, ?_⟩
          rw [ht, List.append_assoc]
          rfl
    · rw [splitStep_of_ge text maxChars overlap st (not_lt.mp hi)] at h
      have h' : some st.parts = some res := h
      injection h' with h'
      exact ⟨[], by rw [← h', List.append_nil]⟩

theorem splitIter_chunk_length (text : Str) (maxChars overlap : Nat) :
    ∀ (fuel : Nat) (st : SplitState) (res : List Str),
      splitIter text maxChars overlap fuel st = some res →
      ∀ c ∈ res, c ∈ st.parts ∨ c.length ≤ maxChars := by
  intro fuel
  induction fuel with
  | zero => intro st res h; cases h
  | succ n ih =>
    intro st res h c hc
    have hmemParts : c ∈ stepParts text maxChars st →
        c ∈ st.parts ∨ c.length ≤ maxChars := by
      intro hmem
      rw [stepParts] at hmem
      split at hmem
      · exact Or.inl hmem
      · rcases List.mem_append.mp hmem with h1 | h1
        · exact Or.inl h1
        · right
          rw [List.mem_singleton.mp h1]
          exact stepChunk_length text maxChars st
    rw [splitIter] at h
    by_cases hi : st.i < text.length
    · by_cases hj : text.length ≤ min text.length (st.i + maxChars)
      · rw [splitStep_of_break text maxChars overlap st hi hj] at h
        have h' : some (stepParts text maxChars st) = some res := h
        injection h' with h'
        exact hmemParts (h' ▸ hc)
      · rw [splitStep_of_cont text maxChars overlap st hi (not_le.mp hj)] at h
        have h' : splitIter text maxChars overlap n
            ⟨min text.length (st.i + maxChars) - overlap,
              stepParts text maxChars st⟩ = some res := h
        rcases ih _ _ h' c hc with h1 | h1
        · exact hmemParts h1
        · exact Or.inr h1
    · rw [splitStep_of_ge text maxChars overlap st (not_lt.mp hi)] at h
      have h' : some st.parts = some res := h
      injection h' with h'
      exact Or.inl (h' ▸ hc)

theorem splitIter_allWs (text : Str) (maxChars overlap : Nat)
    (hws : allWs text) :
    ∀ (fuel : Nat) (st : SplitState) (res : List Str),
      splitIter text maxChars overlap fuel st = some res →
      res = st.parts := by
  intro fuel
  have hchunkws : ∀ st : SplitState, stepChunk text maxChars st = [] := by
    intro st
    refine pyStrip_eq_nil_of_allWs _ (fun c hc => hws c ?_)
    exact (List.drop_sublist _ _).mem ((List.take_sublist _ _).mem hc)
  have hparts : ∀ st : SplitState, stepParts text maxChars st = st.parts := by
    intro st
    rw [stepParts, if_pos (List.isEmpty_iff.mpr (hchunkws st))]
  induction fuel with
  | zero => intro st res h; cases h
  | succ n ih =>
    intro st res h
    rw [splitIter] at h
    by_cases hi : st.i < text.length
    · by_cases hj : text.length ≤ min text.length (st.i + maxChars)
      · rw [splitStep_of_break text maxChars overlap st hi hj] at h
        have h' : some (stepParts text maxChars st) = some res := h
        injection h' with h'
        rw [← h', hparts st]
      · rw [splitStep_of_cont text maxChars overlap st hi (not_le.mp hj)] at h
        have h' : splitIter text maxChars overlap n
            ⟨min text.length (st.i + maxChars) - overlap,
              stepParts text maxChars st⟩ = some res := h
        have := ih _ _ h'
        rw [this]
        exact hparts st
    · rw [splitStep_of_ge text maxChars overlap st (not_lt.mp hi)] at h
      have h' : some st.parts = some res := h
      injection h' with h'
      exact h'.symm

theorem splitIter_nonWs (text : Str) (maxChars overlap : Nat) :
    ∀ (fuel : Nat) (st : SplitState) (res : List Str),
      splitIter text maxChars overlap fuel st = some res →
      ∀ (p : Nat) (hp : p < text.length), st.i ≤ p →
      pyIsSpace (text.get ⟨p, hp⟩) = false →
      ∃ c ∈ res, c ≠ [] := by
  intro fuel
  induction fuel with
  | zero => intro st res h; cases h
  | succ n ih =>
    intro st res h p hp hip hpws
    rw [splitIter] at h
    have hi : st.i < text.length := lt_of_le_of_lt hip hp
    by_cases hpj : p < min text.length (st.i + maxChars)
    · -- the window [st.i, j) covers position p, so this chunk is non-empty
      have hmem : text.get ⟨p, hp⟩
          ∈ (text.drop st.i).take (min text.length (st.i + maxChars) - st.i) := by
        have hlen : p - st.i
            < ((text.drop st.i).take (min text.length (st.i + maxChars) - st.i)).length := by
          rw [List.length_take, List.length_drop]
          omega
        have hgot : ((text.drop st.i).take
            (min text.length (st.i + maxChars) - st.i))[p - st.i]
              = text.get ⟨p, hp⟩ := by
          rw [List.getElem_take, List.getElem_drop]
          congr 1
          omega
        rw [← hgot]
        exact List.getElem_mem hlen
      have hchunkne : stepChunk text maxChars st ≠ [] := by
        intro hnil
        have := allWs_of_pyStrip_eq_nil _ hnil _ hmem
        rw [hpws] at this
        cases this
      have hchunkmem : stepChunk text maxChars st ∈ stepParts text maxChars st := by
        rw [stepParts,
          if_neg (fun hemp => hchunkne (List.isEmpty_iff.mp hemp))]
        exact List.mem_append.mpr (Or.inr (List.mem_singleton.mpr rfl))
      by_cases hj : text.length ≤ min text.length (st.i + maxChars)
      · rw [splitStep_of_break text maxChars overlap st hi hj] at h
        have h' : some (stepParts text maxChars st) = some res := h
        injection h' with h'
        exact ⟨stepChunk text maxChars st, h' ▸ hchunkmem, hchunkne⟩
      · rw [splitStep_of_cont text maxChars overlap st hi (not_le.mp hj)] at h
        have h' : splitIter text maxChars overlap n
            ⟨min text.length (st.i + maxChars) - overlap,
              stepParts text maxChars st⟩ = some res := h
        obtain ⟨t, ht⟩ := splitIter_extends text maxChars overlap n _ res h'
        refine ⟨stepChunk text maxChars st, ?_, hchunkne⟩
        rw [ht]
        exact List.mem_append.mpr (Or.inl hchunkmem)
    · -- p lies beyond the window, so the loop continues
      have hjlt : min text.length (st.i + maxChars) < text.length :=
        lt_of_le_of_lt (le_of_not_lt hpj) hp
      rw [splitStep_of_cont text maxChars overlap st hi hjlt] at h
      have h' : splitIter text maxChars overlap n
          ⟨min text.length (st.i + maxChars) - overlap,
            stepParts text maxChars st⟩ = some res := h
      exact ih _ res h' p hp (by simp only; omega) hpws

theorem splitIter_terminates (text : Str) (maxChars overlap : Nat)
    (hov : overlap < maxChars) :
    ∀ (fuel : Nat) (st : SplitState), text.length - st.i < fuel →
      ∃ parts, splitIter text maxChars overlap fuel st = some parts := by
  intro fuel
  induction fuel with
  | zero => intro st h; omega
  | succ n ih =>
    intro st hfuel
    rw [splitIter]
    by_cases hi : st.i < text.length
    · by_cases hj : text.length ≤ min text.length (st.i + maxChars)
      · rw [splitStep_of_break text maxChars overlap st hi hj]
        exact ⟨_, rfl⟩
      · rw [splitStep_of_cont text maxChars overlap st hi (not_le.mp hj)]
        apply ih
        show text.length - (min text.length (st.i + maxChars) - overlap) < n
        have hj' := not_le.mp hj
        rcases min_cases text.length (st.i + maxChars) with ⟨h1, _⟩ | ⟨h1, _⟩ <;>
          rw [h1] at hj' ⊢ <;> omega
    · rw [splitStep_of_ge text maxChars overlap st (not_lt.mp hi)]
      exact ⟨_, rfl⟩

theorem splitIter_diverges (text : Str) (maxChars overlap : Nat)
    (hov : maxChars ≤ overlap) (hlen : maxChars < text.length) :
    ∀ (fuel : Nat) (acc : List Str),
      splitIter text maxChars overlap fuel ⟨0, acc⟩ = none := by
  intro fuel
  induction fuel with
  | zero => intro acc; rfl
  | succ n ih =>
    intro acc
    rw [splitIter]
    have hi : (⟨0, acc⟩ : SplitState).i < text.length := by
      show 0 < text.length
      omega
    have hminj : min text.length (0 + maxChars) < text.length := by
      have h := min_le_right text.length (0 + maxChars)
      omega
    rw [splitStep_of_cont text maxChars overlap ⟨0, acc⟩ hi hminj]
    show splitIter text maxChars overlap n
      ⟨min text.length (0 + maxChars) - overlap,
        stepParts text maxChars ⟨0, acc⟩⟩ = none
    have hzero : min text.length (0 + maxChars) - overlap = 0 := by
      have h := min_le_right text.length (0 + maxChars)
      omega
    rw [hzero]
    exact ih _

/-! ### Claim theorems about the chunker -/

/-- C3 (counterexample).  The claim says the pre-split normalization turns an
input containing `"a\n\n\nb"` into text containing `"a\n\nb"` (runs of three
or more newlines collapse to exactly two).  In fact the first substitution
`\s+\n → \n` already collapses the whole newline run to a *single* newline
(a newline is itself whitespace), so the normalized text is `"a\nb"`, the
claimed normalized text `"a\n\nb"` does not occur in it, and the splitter
operates on `"a\nb"`. -/
theorem C3_normalization_counterexample :
    normalizeText "a\n\n\nb".data = "a\nb".data
      ∧ ¬ ("a\n\nb".data <:+: normalizeText "a\n\n\nb".data)
      ∧ splitRun "a\n\n\nb".data 1000 150 2 = some ["a\nb".data] := by
  refine ⟨by decide, by decide, by decide⟩

/-- C3 (amended).  Before any splitting, `split_text` normalizes the text so
that no whitespace character remains immediately before a newline (the
substitution `\s+\n → \n` strips whitespace-before-newline and collapses any
newline run of length ≥ 2 to a single newline; the second substitution
`\n{3,} → \n\n` is then inert); e.g. `"a\n\n\nb"` is split over the
normalized text `"a\nb"`. -/
theorem C3_normalization_amended :
    (∀ s : Str, NoWsBeforeNl (normalizeText s))
      ∧ normalizeText "a\n\n\nb".data = "a\nb".data
      ∧ splitRel "a\n\n\nb".data 1000 150 ["a\nb".data] :=
  ⟨noWsBeforeNl_normalizeText, by decide, ⟨2, by decide⟩⟩

/-- C7.  Whenever `split_text(text, max_size, overlap)` returns a result, the
result is empty iff the input is empty or entirely whitespace, and every
returned chunk is a non-empty string of length at most `max_size`. -/
theorem C7_split_text_chunks (text : Str) (maxChars overlap : Nat)
    (res : List Str) (h : splitRel text maxChars overlap res) :
    (res = [] ↔ allWs text) ∧ ∀ c ∈ res, c ≠ [] ∧ c.length ≤ maxChars := by
  obtain ⟨fuel, hrun⟩ := h
  rw [splitRun] at hrun
  by_cases hemp : text.isEmpty
  · rw [if_pos hemp] at hrun
    injection hrun with hrun
    subst hrun
    refine ⟨⟨fun _ => ?_, fun _ => rfl⟩, fun c hc => absurd hc (List.not_mem_nil c)⟩
    intro c hc
    rw [List.isEmpty_iff.mp hemp] at hc
    cases hc
  · rw [if_neg hemp] at hrun
    obtain ⟨parts, hiter, hfilter⟩ := Option.map_eq_some'.mp hrun
    constructor
    · constructor
      · -- an empty result means the input had no non-whitespace character
        intro hres
        by_contra hnall
        rw [allWs] at hnall
        push_neg at hnall
        obtain ⟨c, hcmem, hcws⟩ := hnall
        have hcws' : pyIsSpace c = false := by
          cases hb : pyIsSpace c
          · rfl
          · exact absurd hb hcws
        have hcnorm : c ∈ normalizeText text :=
          mem_normalizeText_of_mem c text hcmem hcws'
        obtain ⟨p, hp, hgetp⟩ := List.getElem_of_mem hcnorm
        have hpws : pyIsSpace ((normalizeText text).get ⟨p, hp⟩) = false := by
          rw [List.get_eq_getElem, hgetp]
          exact hcws'
        obtain ⟨ch, hchmem, hchne⟩ :=
          splitIter_nonWs (normalizeText text) maxChars overlap fuel
            ⟨0, []⟩ parts hiter p hp (Nat.zero_le p) hpws
        have : ch ∈ res := by
          rw [← hfilter]
          refine List.mem_filter.mpr ⟨hchmem, ?_⟩
          cases hce : ch.isEmpty
          · rfl
          · exact absurd (List.isEmpty_iff.mp hce) hchne
        rw [hres] at this
        cases this
      · -- an all-whitespace input strips to nothing, so no chunk survives
        intro hws
        have hparts : parts = [] :=
          splitIter_allWs (normalizeText text) maxChars overlap
            (allWs_normalizeText text hws) fuel ⟨0, []⟩ parts hiter
        rw [← hfilter, hparts]
        rfl
    · intro c hc
      rw [← hfilter] at hc
      obtain ⟨hcparts, hcemp⟩ := List.mem_filter.mp hc
      refine ⟨?_, ?_⟩
      · intro hnil
        rw [hnil] at hcemp
        cases hcemp
      · rcases splitIter_chunk_length (normalizeText text) maxChars overlap
          fuel ⟨0, []⟩ parts hiter c hcparts with h1 | h1
        · cases h1
        · exact h1

/-- C7 (witness): `split_text("ab", 2, 1)` returns `["ab"]`, which is
non-empty, and its chunk has length `2 ≤ 2`. -/
theorem C7_split_text_chunks_witness :
    splitRel "ab".data 2 1 ["ab".data]
      ∧ ((["ab".data] = [] ↔ allWs "ab".data)
          ∧ ∀ c ∈ ["ab".data], c ≠ [] ∧ c.length ≤ 2) := by
  have h : splitRel "ab".data 2 1 ["ab".data] := ⟨1, by decide⟩
  exact ⟨h, C7_split_text_chunks "ab".data 2 1 ["ab".data] h⟩

/-- C9.  The `split_text` loop terminates for every input whenever
`overlap < max_size` (each continuing iteration advances the window start by
`max_size - overlap > 0`), and diverges whenever `overlap ≥ max_size` and the
normalized text is longer than `max_size` (the window start is then stuck at
`max(0, max_size - overlap) = 0`). -/
theorem C9_split_text_termination :
    (∀ (text : Str) (maxChars overlap : Nat), overlap < maxChars →
        ∃ res, splitRel text maxChars overlap res)
      ∧ (∀ (text : Str) (maxChars overlap : Nat), maxChars ≤ overlap →
        maxChars < (normalizeText text).length →
        ¬ ∃ res, splitRel text maxChars overlap res) := by
  constructor
  · intro text maxChars overlap hov
    by_cases hemp : text.isEmpty
    · exact ⟨[], 1, by rw [splitRun, if_pos hemp]⟩
    · obtain ⟨parts, hiter⟩ :=
        splitIter_terminates (normalizeText text) maxChars overlap hov
          ((normalizeText text).length + 1) ⟨0, []⟩ (by omega)
      refine ⟨parts.filter (fun p => !p.isEmpty), (normalizeText text).length + 1, ?_⟩
      rw [splitRun, if_neg hemp, hiter]
      rfl
  · intro text maxChars overlap hov hlen
    rintro ⟨res, fuel, hrun⟩
    have hemp : text.isEmpty = false := by
      cases hb : text.isEmpty
      · rfl
      · exfalso
        rw [List.isEmpty_iff.mp hb] at hlen
        have hnil : (normalizeText ([] : Str)).length = 0 := rfl
        omega
    rw [splitRun, if_neg (by rw [hemp]; exact Bool.false_ne_true),
      splitIter_diverges (normalizeText text) maxChars overlap hov hlen fuel []]
      at hrun
    cases hrun

/-- C9 (witness): with `max_size = 2 > 1 = overlap` the chunker terminates on
`"ab"`; with `max_size = 1 ≤ 1 = overlap` and normalized length `2 > 1` it
diverges. -/
theorem C9_split_text_termination_witness :
    (∃ res, splitRel "ab".data 2 1 res)
      ∧ ¬ ∃ res, splitRel "ab".data 1 1 res :=
  ⟨C9_split_text_termination.1 "ab".data 2 1 (by decide),
    C9_split_text_termination.2 "ab".data 1 1 (by decide) (by decide)⟩

/-! ### The context builder (`build_context_for_answer`, api.py lines 1628–1640) -/

/-- Python `text.split("\n")` (empty string splits to `[""]`, separators at
the ends yield empty segments, exactly as `List.splitOn`). -/
def splitNl (s : Str) : List Str := s.splitOn '\n'

/-- Python `p.split()` with no argument: split on whitespace runs, dropping
empty segments. -/
def pySplitWhite (s : Str) : List Str :=
  (s.splitOnP pyIsSpace).filter (fun p => !p.isEmpty)

/-- Python `" ".join(p.split())`: the whitespace-normalized deduplication key
of `build_context_for_answer`. -/
def normKey (p : Str) : Str := List.intercalate [' '] (pySplitWhite p)

/-- Python `"\n".join(paras)`. -/
def joinNl : List Str → Str
  | [] => []
  | p :: rest =>
      match rest with
      | [] => p
      | _ :: _ => p ++ '\n' :: joinNl rest

/-- Python `sum(len(x) + 1 for x in paras)` (api.py line 1638). -/
def totalLen (paras : List Str) : Nat := (paras.map (fun x => x.length + 1)).sum

/-- A row of the `sims` list built in `ask_ep` (api.py line 1709):
`(float(sim), doc_id, ord_, text, titulo)`. -/
structure SimRow where
  sim : ℚ
  docId : Nat
  ord : Nat
  text : Str
  titulo : Str
deriving DecidableEq

/-- The nested loop of `build_context_for_answer` (api.py lines 1630–1639),
over the concatenated lines of all chunks in order: strip the line, skip if
empty, skip if its whitespace-normalized key was already seen, otherwise
record the key and append the line; after appending, if
`sum(len(x) + 1 for x in paras) > max_chars`, return at once (the overflowing
line stays in). -/
def ctxGo (maxChars : Nat) : List Str → List Str → List Str → List Str
  | [], paras, _ => paras
  | p :: rest, paras, seen =>
      if (pyStrip p).isEmpty then ctxGo maxChars rest paras seen
      else if normKey (pyStrip p) ∈ seen then ctxGo maxChars rest paras seen
      else
        if maxChars < totalLen (paras ++ [pyStrip p]) then paras ++ [pyStrip p]
        else ctxGo maxChars rest (paras ++ [pyStrip p])
          (seen ++ [normKey (pyStrip p)])

/-- The `paras` list produced by `build_context_for_answer(sims, max_chars)`
(iterating over each row's `text.split("\n")` in order). -/
def ctxParas (sims : List SimRow) (maxChars : Nat) : List Str :=
  ctxGo maxChars ((sims.map (fun s => splitNl s.text)).flatten) [] []

/-- `build_context_for_answer(sims, max_chars)` from api.py lines 1628–1640:
the joined surviving lines. -/
def build_context_for_answer (sims : List SimRow) (maxChars : Nat) : Str :=
  joinNl (ctxParas sims maxChars)

/-- Length of the longest stripped line occurring in `sims` (the bound "one
line" in the claim). -/
def maxLineLen (sims : List SimRow) : Nat :=
  (((sims.map (fun s => splitNl s.text)).flatten).map
    (fun p => (pyStrip p).length)).foldr max 0

theorem le_foldr_max (l : List Nat) : ∀ x ∈ l, x ≤ l.foldr max 0 := by
  induction l with
  | nil => intro x hx; cases hx
  | cons a rest ih =>
    intro x hx
    rcases List.mem_cons.mp hx with h | h
    · subst h
      exact le_max_left _ _
    · exact le_trans (ih x h) (le_max_right _ _)

theorem totalLen_append_one (paras : List Str) (q : Str) :
    totalLen (paras ++ [q]) = totalLen paras + (q.length + 1) := by
  simp [totalLen]

theorem joinNl_length (paras : List Str) (h : paras ≠ []) :
    (joinNl paras).length + 1 = totalLen paras := by
  induction paras with
  | nil => exact absurd rfl h
  | cons p rest ih =>
    cases rest with
    | nil => simp [joinNl, totalLen]
    | cons r rs =>
      have := ih (List.cons_ne_nil r rs)
      rw [joinNl]
      simp only [List.length_append, List.length_cons, totalLen, List.map_cons,
        List.sum_cons] at this ⊢
      omega

theorem ctxGo_totalLen (maxChars L : Nat) :
    ∀ (lines paras seen : List Str),
      totalLen paras ≤ maxChars →
      (∀ p ∈ lines, (pyStrip p).length ≤ L) →
      totalLen (ctxGo maxChars lines paras seen) ≤ maxChars + L + 1 := by
  intro lines
  induction lines with
  | nil =>
    intro paras seen hinv _
    rw [ctxGo]
    omega
  | cons p rest ih =>
    intro paras seen hinv hlines
    have hrest : ∀ x ∈ rest, (pyStrip x).length ≤ L :=
      fun x hx => hlines x (List.mem_cons_of_mem p hx)
    have hp : (pyStrip p).length ≤ L := hlines p (List.mem_cons_self p rest)
    rw [ctxGo]
    split
    · exact ih paras seen hinv hrest
    · split
      · exact ih paras seen hinv hrest
      · split
        · rw [totalLen_append_one]
          omega
        · rename_i hover
          refine ih _ _ ?_ hrest
          rw [totalLen_append_one] at hover
          rw [totalLen_append_one]
          omega

theorem ctxGo_nonempty (maxChars : Nat) :
    ∀ (lines paras seen : List Str),
      (∀ q ∈ paras, q ≠ []) →
      ∀ q ∈ ctxGo maxChars lines paras seen, q ≠ [] := by
  intro lines
  induction lines with
  | nil =>
    intro paras seen hinv
    rw [ctxGo]
    exact hinv
  | cons p rest ih =>
    intro paras seen hinv
    have happ : ∀ q ∈ paras ++ [pyStrip p], (pyStrip p).isEmpty = false → q ≠ [] := by
      intro q hq hpe
      rcases List.mem_append.mp hq with h | h
      · exact hinv q h
      · rw [List.mem_singleton.mp h]
        intro hnil
        rw [hnil] at hpe
        cases hpe
    rw [ctxGo]
    split
    · exact ih paras seen hinv
    · rename_i hpe
      have hpe' : (pyStrip p).isEmpty = false := by
        cases hb : (pyStrip p).isEmpty
        · rfl
        · exact absurd hb hpe
      split
      · exact ih paras seen hinv
      · split
        · exact fun q hq => happ q hq hpe'
        · exact ih _ _ (fun q hq => happ q hq hpe')

/-- C4 (counterexample).  The claim says the line causing overflow is
excluded in full.  With one chunk whose only line is `"aaaa"` and a budget of
3, the builder appends the line, only then notices the overflow and returns —
the output is `"aaaa"` itself, of length 4 > 3, so the overflowing line was
included, not excluded. -/
theorem C4_context_overflow_counterexample :
    build_context_for_answer [⟨0, 1, 0, "aaaa".data, "t".data⟩] 3 = "aaaa".data
      ∧ 3 < ("aaaa".data).length := by
  refine ⟨by decide, by decide⟩

/-- C4 (amended).  The context builder appends surviving (trimmed, non-empty,
not-previously-seen) lines in order and stops right *after* the line whose
addition makes the running total exceed the budget; that line is included in
full (not truncated mid-line), so the output's total length never exceeds the
budget plus the length of one (the longest) line, and every kept paragraph is
non-empty. -/
theorem C4_context_budget_amended (sims : List SimRow) (maxChars : Nat) :
    (build_context_for_answer sims maxChars).length ≤ maxChars + maxLineLen sims
      ∧ ∀ q ∈ ctxParas sims maxChars, q ≠ [] := by
  constructor
  · have hbound : ∀ p ∈ (sims.map (fun s => splitNl s.text)).flatten,
        (pyStrip p).length ≤ maxLineLen sims := by
      intro p hp
      exact le_foldr_max _ _ (List.mem_map_of_mem (fun x => (pyStrip x).length) hp)
    have htot : totalLen (ctxParas sims maxChars) ≤ maxChars + maxLineLen sims + 1 :=
      ctxGo_totalLen maxChars (maxLineLen sims) _ [] []
        (by rw [totalLen]; simp) hbound
    rw [build_context_for_answer]
    rcases hps : ctxParas sims maxChars with _ | ⟨p, rest⟩
    · rw [joinNl]
      simp
    · have hne : ctxParas sims maxChars ≠ [] := by rw [hps]; exact List.cons_ne_nil _ _
      have := joinNl_length _ hne
      rw [hps] at this htot
      omega
  · exact ctxGo_nonempty maxChars _ [] [] (fun q hq => absurd hq (List.not_mem_nil q))

/-! ### The similarity ranking (`fetch_all_vectors` + `ask_ep`'s sort) -/

/-- A row of `fetch_all_vectors()` (src/db_sqlite.py lines 122–145):
`(chunk_id, doc_id, ord, text, emb, titulo)`; the document title comes from
the SQL join with `documents`. -/
structure ChunkTup where
  chunkId : Nat
  docId : Nat
  ord : Nat
  text : Str
  emb : List ℚ
  titulo : Str
deriving DecidableEq

/-- The `ORDER BY c.doc_id, c.ord` comparison of `fetch_all_vectors`. -/
def storageLE (a b : ChunkTup) : Bool :=
  a.docId < b.docId || (a.docId = b.docId && a.ord ≤ b.ord)

/-- `fetch_all_vectors()`: the joined chunk rows sorted by
`ORDER BY c.doc_id, c.ord` (src/db_sqlite.py lines 125–130).  The sort is
modelled as a stable merge sort over the table rows. -/
def fetch_all_vectors (tbl : List ChunkTup) : List ChunkTup :=
  tbl.mergeSort storageLE

/-- The `sims` list built in `ask_ep` (api.py lines 1705–1709), one row
`(sim, doc_id, ord, text, titulo)` per fetched tuple, in fetch order.  The
cosine score `float(np.dot(qvec, emb) / (q_norm * (norm(emb) + 1e-9)))` is a
pure function of the row's embedding once the query vector is fixed; it is
abstracted as the parameter `score`, since only the resulting values drive
the sort. -/
def simsOf (score : List ℚ → ℚ) (items : List ChunkTup) : List SimRow :=
  items.map (fun t => ⟨score t.emb, t.docId, t.ord, t.text, t.titulo⟩)

/-- The ranking `sims.sort(reverse=True, key=lambda x: x[0])` of `ask_ep`
(api.py line 1710): CPython's list sort is stable, and `reverse=True` orders
by descending key without disturbing ties, which is exactly a stable merge
sort under the comparison `b.sim ≤ a.sim`. -/
def rankSims (score : List ℚ → ℚ) (items : List ChunkTup) : List SimRow :=
  (simsOf score items).mergeSort (fun a b => decide (b.sim ≤ a.sim))

theorem simDesc_trans (a b c : SimRow) (h1 : decide (b.sim ≤ a.sim) = true)
    (h2 : decide (c.sim ≤ b.sim) = true) : decide (c.sim ≤ a.sim) = true := by
  rw [decide_eq_true_eq] at h1 h2 ⊢
  exact le_trans h2 h1

theorem simDesc_total (a b : SimRow) :
    (decide (b.sim ≤ a.sim) || decide (a.sim ≤ b.sim)) = true := by
  rcases le_total a.sim b.sim with h | h
  · rw [decide_eq_true h]
    exact Bool.or_true _
  · rw [decide_eq_true h]
    rfl

theorem storageLE_trans (a b c : ChunkTup) (h1 : storageLE a b = true)
    (h2 : storageLE b c = true) : storageLE a c = true := by
  rw [storageLE] at h1 h2 ⊢
  simp only [Bool.or_eq_true, Bool.and_eq_true, decide_eq_true_eq] at h1 h2 ⊢
  omega

theorem storageLE_total (a b : ChunkTup) :
    (storageLE a b || storageLE b a) = true := by
  rw [storageLE, storageLE]
  simp only [Bool.or_eq_true, Bool.and_eq_true, decide_eq_true_eq]
  omega

/-- C6.  The ranking handed to the answering pipeline is sorted by descending
similarity; rows of equal similarity keep exactly the order in which the
storage layer returned them; and the storage layer returns the tuples sorted
by `doc_id` then ordinal. -/
theorem C6_ranking_sorted_stable (score : List ℚ → ℚ) (tbl : List ChunkTup)
    (_hne : fetch_all_vectors tbl ≠ []) :
    (rankSims score (fetch_all_vectors tbl)).Pairwise
        (fun a b => b.sim ≤ a.sim)
      ∧ (∀ q : ℚ,
          (rankSims score (fetch_all_vectors tbl)).filter
              (fun r => decide (r.sim = q))
            = (simsOf score (fetch_all_vectors tbl)).filter
                (fun r => decide (r.sim = q)))
      ∧ (fetch_all_vectors tbl).Pairwise (fun a b => storageLE a b = true) := by
  refine ⟨?_, ?_, ?_⟩
  · have h := @List.sorted_mergeSort SimRow (fun a b : SimRow => decide (b.sim ≤ a.sim))
      simDesc_trans simDesc_total (simsOf score (fetch_all_vectors tbl))
    refine h.imp ?_
    intro a b hab
    exact decide_eq_true_eq.mp hab
  · intro q
    set l := simsOf score (fetch_all_vectors tbl) with hl
    set p : SimRow → Bool := fun r => decide (r.sim = q) with hp
    have hperm : (rankSims score (fetch_all_vectors tbl)).Perm l :=
      List.mergeSort_perm l _
    have hpermf : (List.filter p (rankSims score (fetch_all_vectors tbl))).Perm
        (List.filter p l) := hperm.filter p
    have hsortedf : (List.filter p l).Pairwise
        (fun a b : SimRow => decide (b.sim ≤ a.sim) = true) := by
      refine List.pairwise_of_forall_mem_list ?_
      intro a ha b hb
      have haq : a.sim = q := by
        have := (List.mem_filter.mp ha).2
        rwa [hp, decide_eq_true_eq] at this
      have hbq : b.sim = q := by
        have := (List.mem_filter.mp hb).2
        rwa [hp, decide_eq_true_eq] at this
      rw [decide_eq_true_eq, haq, hbq]
    have hsub : (List.filter p l).Sublist (rankSims score (fetch_all_vectors tbl)) :=
      List.sublist_mergeSort simDesc_trans simDesc_total hsortedf
        (List.filter_sublist l)
    have hsub2 : (List.filter p (List.filter p l)).Sublist
        (List.filter p (rankSims score (fetch_all_vectors tbl))) :=
      hsub.filter p
    rw [List.filter_filter] at hsub2
    have hfilterp : (List.filter (fun a => p a && p a) l) = List.filter p l := by
      congr 1
      funext a
      exact Bool.and_self (p a)
    rw [hfilterp] at hsub2
    exact (hsub2.eq_of_length hpermf.length_eq.symm).symm
  · have h := @List.sorted_mergeSort ChunkTup storageLE
      storageLE_trans storageLE_total tbl
    exact h

/-- A concrete three-row chunk store (two rows of one document sharing an
embedding, hence a similarity tie, plus a row of a second document). -/
def demoChunkTbl : List ChunkTup :=
  [⟨1, 1, 0, "a".data, [1], "T".data⟩,
    ⟨2, 1, 1, "b".data, [1], "T".data⟩,
    ⟨3, 2, 0, "c".data, [2], "U".data⟩]

/-- A concrete scoring function standing for the cosine against a fixed
query vector: the first coordinate of the row's embedding. -/
def demoScore : List ℚ → ℚ := fun e => e.headD 0

theorem fetch_demoChunkTbl_ne_nil : fetch_all_vectors demoChunkTbl ≠ [] := by
  intro hc
  have hlen : (fetch_all_vectors demoChunkTbl).length = 3 := by
    rw [fetch_all_vectors, List.length_mergeSort]
    rfl
  rw [hc] at hlen
  cases hlen

/-- C6 (witness): a concrete three-row store exercising a similarity tie. -/
theorem C6_ranking_sorted_stable_witness :
    fetch_all_vectors demoChunkTbl ≠ []
      ∧ ((rankSims demoScore (fetch_all_vectors demoChunkTbl)).Pairwise
            (fun a b => b.sim ≤ a.sim)
          ∧ (∀ q : ℚ,
              (rankSims demoScore (fetch_all_vectors demoChunkTbl)).filter
                  (fun r => decide (r.sim = q))
                = (simsOf demoScore (fetch_all_vectors demoChunkTbl)).filter
                    (fun r => decide (r.sim = q)))
          ∧ (fetch_all_vectors demoChunkTbl).Pairwise
              (fun a b => storageLE a b = true)) :=
  ⟨fetch_demoChunkTbl_ne_nil,
    C6_ranking_sorted_stable demoScore demoChunkTbl fetch_demoChunkTbl_ne_nil⟩

/-! ### The storage layer: chunk insertion and record upsert
(src/db_sqlite.py) -/

/-- A row of the `chunks` table: `(chunk_id, doc_id, ord, text, emb_json)`,
the embedding kept as a vector. -/
structure ChunkRow where
  chunkId : Nat
  docId : Nat
  ord : Nat
  text : Str
  emb : List ℚ
deriving DecidableEq

/-- The `chunks` table with the next `AUTOINCREMENT` row id. -/
structure ChunkTable where
  rows : List ChunkRow
  nextId : Nat
deriving DecidableEq

/-- `insert_chunks(doc_id, chunks, embs)` (src/db_sqlite.py lines 105–120):
`zip(chunks, embs_list)` silently truncates to the shorter list, `enumerate`
numbers the surviving pairs `0, 1, ...` as the `ord` column, the rows are
appended, and the row count is returned. -/
def insert_chunks (tbl : ChunkTable) (docId : Nat) (texts : List Str)
    (embs : List (List ℚ)) : ChunkTable × Nat :=
  let rows := ((texts.zip embs).enum.map
    (fun p => (⟨tbl.nextId + p.1, docId, p.1, p.2.1, p.2.2⟩ : ChunkRow)))
  (⟨tbl.rows ++ rows, tbl.nextId + rows.length⟩, rows.length)

/-- A structured record (`registro`), modelled as its field map; Python dict
keys are unique and `get` returns the first (only) binding. -/
abbrev Registro := List (Str × Str)

/-- Python `registro.get(key)` / `registro[campo]`. -/
def regGet (r : Registro) (k : Str) : Option Str :=
  (r.find? (fun p => p.1 = k)).map (fun p => p.2)

/-- Python truthiness for the field values (`campo in registro and
registro[campo]`): present and non-empty. -/
def regTruthy (r : Registro) (k : Str) : Bool :=
  match regGet r k with
  | none => false
  | some v => !v.isEmpty

/-- Python `f"{indice:06d}"`: decimal digits left-padded with zeros to at
least width 6. -/
def pad6 (n : Nat) : Str :=
  let d := (Nat.repr n).data
  List.replicate (6 - d.length) '0' ++ d

/-- `generar_codigo_unico(registro, indice)` (src/db_sqlite.py lines
182–192): the first truthy field among `codigo_de_secop`,
`numero_del_proceso`, `referencia_del_contrato`, `id_contrato`, stripped;
otherwise `f"SEC-{indice:06d}"`. -/
def generar_codigo_unico (registro : Registro) (indice : Nat) : Str :=
  match ["codigo_de_secop".data, "numero_del_proceso".data,
      "referencia_del_contrato".data, "id_contrato".data].find?
      (fun campo => regTruthy registro campo) with
  | some campo => pyStrip ((regGet registro campo).getD [])
  | none => "SEC-".data ++ pad6 indice

/-- `extraer_texto_indexar(registro)` (src/db_sqlite.py lines 195–225):
collect the first truthy departamento-like field, the process description,
the first truthy objeto-like field and the entity name, each with its label,
joined with newlines. -/
def extraer_texto_indexar (registro : Registro) : Str :=
  let campos :=
    (match ["departamento".data, "departamento_entidad".data,
        "departamento_ejecucion".data].find?
        (fun k => regTruthy registro k) with
      | some k => ["Departamento: ".data ++ (regGet registro k).getD []]
      | none => [])
    ++ (if regTruthy registro "descripcion_del_proceso".data then
          ["Descripción: ".data
            ++ (regGet registro "descripcion_del_proceso".data).getD []]
        else [])
    ++ (match ["objeto_del_contrato".data, "objeto_a_contratar".data,
        "detalle_del_objeto_a_contratar".data].find?
        (fun k => regTruthy registro k) with
      | some k => ["Objeto: ".data ++ (regGet registro k).getD []]
      | none => [])
    ++ (if regTruthy registro "nombre_entidad".data then
          ["Entidad: ".data ++ (regGet registro "nombre_entidad".data).getD []]
        else [])
  joinNl campos

/-- A row of the `contratos` table:
`(id, codigo_unico, texto_total, texto_indexar)`. -/
structure ContRow where
  id : Nat
  codigo : Str
  textoTotal : Str
  textoIndexar : Str
deriving DecidableEq

/-- The `contratos` table with the next `AUTOINCREMENT` id. -/
structure ContTable where
  rows : List ContRow
  nextId : Nat
deriving DecidableEq

/-- `insert_contrato(registro, indice)` (src/db_sqlite.py lines 228–251):
derive the unique code, serialize the record (`json.dumps`, abstracted as the
parameter `dumps`), extract the indexable text, and `INSERT OR REPLACE` on
the `UNIQUE` column `codigo_unico`: any existing row with the same code is
deleted and the new row is inserted with a fresh id.  Returns the code. -/
def insert_contrato (dumps : Registro → Str) (tbl : ContTable)
    (registro : Registro) (indice : Nat) : ContTable × Str :=
  let codigo := generar_codigo_unico registro indice
  (⟨tbl.rows.filter (fun r => !decide (r.codigo = codigo))
      ++ [⟨tbl.nextId, codigo, dumps registro, extraer_texto_indexar registro⟩],
    tbl.nextId + 1⟩, codigo)

/-- Number of `contratos` rows carrying a given unique code. -/
def countCodigo (tbl : ContTable) (codigo : Str) : Nat :=
  (tbl.rows.filter (fun r => decide (r.codigo = codigo))).length

/-- Iterated re-insertion of the same record. -/
def insertContratoN (dumps : Registro → Str) (registro : Registro)
    (indice : Nat) : Nat → ContTable → ContTable
  | 0, tbl => tbl
  | n + 1, tbl => insertContratoN dumps registro indice n
      (insert_contrato dumps tbl registro indice).1

/-- A row of the `contrato_embeddings` table:
`(emb_id, codigo_unico, chunk_ord, chunk_text, emb_json)`. -/
structure ContEmbRow where
  embId : Nat
  codigo : Str
  ord : Nat
  text : Str
  emb : List ℚ
deriving DecidableEq

/-- The `contrato_embeddings` table with its next `AUTOINCREMENT` id. -/
structure ContEmbTable where
  rows : List ContEmbRow
  nextId : Nat
deriving DecidableEq

/-- `insert_contrato_embeddings(codigo_unico, chunks, embeddings)`
(src/db_sqlite.py lines 254–284): pair texts and vectors positionally with
`zip`+`enumerate` (truncating to the shorter), delete all prior embedding
rows of the code, insert the new rows, return their count. -/
def insert_contrato_embeddings (tbl : ContEmbTable) (codigo : Str)
    (chunks : List Str) (embs : List (List ℚ)) : ContEmbTable × Nat :=
  let rows := ((chunks.zip embs).enum.map
    (fun p => (⟨tbl.nextId + p.1, codigo, p.1, p.2.1, p.2.2⟩ : ContEmbRow)))
  (⟨(tbl.rows.filter (fun r => !decide (r.codigo = codigo))) ++ rows,
    tbl.nextId + rows.length⟩, rows.length)

theorem zip_map_fst {α β : Type} (l₁ : List α) (l₂ : List β) :
    (l₁.zip l₂).map Prod.fst = l₁.take l₂.length := by
  induction l₁ generalizing l₂ with
  | nil => simp
  | cons a as ih =>
    cases l₂ with
    | nil => simp
    | cons b bs => simp [ih bs]

theorem zip_map_snd {α β : Type} (l₁ : List α) (l₂ : List β) :
    (l₁.zip l₂).map Prod.snd = l₂.take l₁.length := by
  induction l₁ generalizing l₂ with
  | nil => simp
  | cons a as ih =>
    cases l₂ with
    | nil => simp
    | cons b bs => simp [ih bs]

theorem countCodigo_insert (dumps : Registro → Str) (tbl : ContTable)
    (registro : Registro) (indice : Nat) :
    countCodigo (insert_contrato dumps tbl registro indice).1
      (generar_codigo_unico registro indice) = 1 := by
  rw [insert_contrato, countCodigo]
  simp only [List.filter_append, List.filter_filter, List.length_append]
  have h1 : List.filter
      (fun r => decide (r.codigo = generar_codigo_unico registro indice)
        && !decide (r.codigo = generar_codigo_unico registro indice))
      tbl.rows = [] := by
    have : (fun r : ContRow =>
        decide (r.codigo = generar_codigo_unico registro indice)
          && !decide (r.codigo = generar_codigo_unico registro indice))
        = fun _ => false := by
      funext r
      exact Bool.and_not_self _
    rw [this, List.filter_false]
  rw [h1]
  simp

/-- C8.  Record insertion is an idempotent upsert: one insertion leaves
exactly one `contratos` row carrying the derived unique code, and re-running
the same insertion any positive number of times still leaves exactly one row
for that code (`INSERT OR REPLACE` on the `UNIQUE` column replaces rather
than duplicates). -/
theorem C8_insert_contrato_upsert (dumps : Registro → Str) (tbl : ContTable)
    (registro : Registro) (indice : Nat) :
    countCodigo (insert_contrato dumps tbl registro indice).1
        (generar_codigo_unico registro indice) = 1
      ∧ ∀ n : Nat,
        countCodigo (insertContratoN dumps registro indice (n + 1) tbl)
          (generar_codigo_unico registro indice) = 1 := by
  refine ⟨countCodigo_insert dumps tbl registro indice, ?_⟩
  intro n
  induction n generalizing tbl with
  | zero =>
    rw [insertContratoN, insertContratoN]
    exact countCodigo_insert dumps tbl registro indice
  | succ m ih =>
    rw [insertContratoN]
    exact ih _

/-- C10.  Chunk insertion pairs texts with vectors positionally and silently
truncates to the shorter sequence: `insert_chunks` appends exactly
`min(len(texts), len(vectors))` rows, with ordinals `0..min-1` in order and
the first `min` texts and vectors, and returns that count;
`insert_contrato_embeddings` does the same after deleting the code's prior
rows.  Both are total functions of their inputs (no length check, no
error). -/
theorem C10_insert_zip_truncates (tbl : ChunkTable) (docId : Nat)
    (texts : List Str) (embs : List (List ℚ))
    (etbl : ContEmbTable) (codigo : Str) :
    ((insert_chunks tbl docId texts embs).2 = min texts.length embs.length
      ∧ (insert_chunks tbl docId texts embs).1.rows.take tbl.rows.length
          = tbl.rows
      ∧ ((insert_chunks tbl docId texts embs).1.rows.drop tbl.rows.length).map
          ChunkRow.ord = List.range (min texts.length embs.length)
      ∧ ((insert_chunks tbl docId texts embs).1.rows.drop tbl.rows.length).map
          ChunkRow.text = texts.take (min texts.length embs.length)
      ∧ ((insert_chunks tbl docId texts embs).1.rows.drop tbl.rows.length).map
          ChunkRow.emb = embs.take (min texts.length embs.length))
    ∧ ((insert_contrato_embeddings etbl codigo texts embs).2
          = min texts.length embs.length
      ∧ ((insert_contrato_embeddings etbl codigo texts embs).1.rows.filter
            (fun r => decide (r.codigo = codigo))).map ContEmbRow.ord
          = List.range (min texts.length embs.length)
      ∧ ((insert_contrato_embeddings etbl codigo texts embs).1.rows.filter
            (fun r => decide (r.codigo = codigo))).map ContEmbRow.text
          = texts.take (min texts.length embs.length)) := by
  have hzlen : (texts.zip embs).length = min texts.length embs.length :=
    List.length_zip _ _
  have htake_texts : texts.take embs.length
      = texts.take (min texts.length embs.length) := by
    rw [List.take_eq_take]
    omega
  have htake_embs : embs.take texts.length
      = embs.take (min texts.length embs.length) := by
    rw [List.take_eq_take]
    omega
  constructor
  · refine ⟨?_, ?_, ?_, ?_, ?_⟩
    · show ((texts.zip embs).enum.map _).length = _
      rw [List.length_map, List.enum_length, hzlen]
    · show List.take tbl.rows.length (tbl.rows ++ _) = tbl.rows
      exact List.take_left _ _
    · show (List.map ChunkRow.ord
        (List.drop tbl.rows.length (tbl.rows ++ _))) = _
      rw [List.drop_left, List.map_map]
      have hcomp : (ChunkRow.ord ∘ fun p : Nat × (Str × List ℚ) =>
          (⟨tbl.nextId + p.1, docId, p.1, p.2.1, p.2.2⟩ : ChunkRow))
          = Prod.fst := by
        funext p
        rfl
      rw [hcomp, List.enum_map_fst, hzlen]
    · show (List.map ChunkRow.text
        (List.drop tbl.rows.length (tbl.rows ++ _))) = _
      rw [List.drop_left, List.map_map]
      have hcomp : (ChunkRow.text ∘ fun p : Nat × (Str × List ℚ) =>
          (⟨tbl.nextId + p.1, docId, p.1, p.2.1, p.2.2⟩ : ChunkRow))
          = Prod.fst ∘ Prod.snd := by
        funext p
        rfl
      rw [hcomp, ← List.map_map, List.enum_map_snd, zip_map_fst, htake_texts]
    · show (List.map ChunkRow.emb
        (List.drop tbl.rows.length (tbl.rows ++ _))) = _
      rw [List.drop_left, List.map_map]
      have hcomp : (ChunkRow.emb ∘ fun p : Nat × (Str × List ℚ) =>
          (⟨tbl.nextId + p.1, docId, p.1, p.2.1, p.2.2⟩ : ChunkRow))
          = Prod.snd ∘ Prod.snd := by
        funext p
        rfl
      rw [hcomp, ← List.map_map, List.enum_map_snd, zip_map_snd, htake_embs]
  · have hfilter : (insert_contrato_embeddings etbl codigo texts embs).1.rows.filter
        (fun r => decide (r.codigo = codigo))
        = (texts.zip embs).enum.map (fun p =>
            (⟨etbl.nextId + p.1, codigo, p.1, p.2.1, p.2.2⟩ : ContEmbRow)) := by
      show List.filter _ (List.filter _ etbl.rows ++ _) = _
      rw [List.filter_append, List.filter_filter]
      have h1 : List.filter (fun r => decide (r.codigo = codigo)
          && !decide (r.codigo = codigo)) etbl.rows = [] := by
        have heq : (fun r : ContEmbRow => decide (r.codigo = codigo)
            && !decide (r.codigo = codigo)) = fun _ => false := by
          funext r
          exact Bool.and_not_self _
        rw [heq, List.filter_false]
      have h2 : List.filter (fun r => decide (r.codigo = codigo))
          ((texts.zip embs).enum.map (fun p =>
            (⟨etbl.nextId + p.1, codigo, p.1, p.2.1, p.2.2⟩ : ContEmbRow)))
          = (texts.zip embs).enum.map (fun p =>
            (⟨etbl.nextId + p.1, codigo, p.1, p.2.1, p.2.2⟩ : ContEmbRow)) := by
        rw [List.filter_map]
        have heq : ((fun r : ContEmbRow => decide (r.codigo = codigo))
            ∘ (fun p : Nat × (Str × List ℚ) =>
              (⟨etbl.nextId + p.1, codigo, p.1, p.2.1, p.2.2⟩ : ContEmbRow)))
            = fun _ => true := by
          funext p
          simp
        rw [heq, List.filter_true]
      rw [h1, h2, List.nil_append]
    refine ⟨?_, ?_, ?_⟩
    · show ((texts.zip embs).enum.map _).length = _
      rw [List.length_map, List.enum_length, hzlen]
    · rw [hfilter, List.map_map]
      have hcomp : (ContEmbRow.ord ∘ fun p : Nat × (Str × List ℚ) =>
          (⟨etbl.nextId + p.1, codigo, p.1, p.2.1, p.2.2⟩ : ContEmbRow))
          = Prod.fst := by
        funext p
        rfl
      rw [hcomp, List.enum_map_fst, hzlen]
    · rw [hfilter, List.map_map]
      have hcomp : (ContEmbRow.text ∘ fun p : Nat × (Str × List ℚ) =>
          (⟨etbl.nextId + p.1, codigo, p.1, p.2.1, p.2.2⟩ : ContEmbRow))
          = Prod.fst ∘ Prod.snd := by
        funext p
        rfl
      rw [hcomp, ← List.map_map, List.enum_map_snd, zip_map_fst, htake_texts]

/-! ### The trusted catalog and the auto-ingestion controller (api.py) -/

/-- Python `str.lower()` (ASCII fragment; every catalog keyword is already
lowercase, so only the question's ASCII letters matter for the scoring). -/
def pyLower (s : Str) : Str := s.map Char.toLower

/-- Python's substring test `needle in hay`. -/
def containsSub (hay needle : Str) : Bool :=
  hay.tails.any (fun t => needle.isPrefixOf t)

/-- An entry of the `TRUSTED_PDFS` catalog (api.py lines 77–106). -/
structure Candidate where
  titulo : Str
  url : Str
  entidad : Str
  keywords : List Str
deriving DecidableEq

/-- URL of the first catalog entry. -/
def URL0 : Str :=
  "https://operaciones.colombiacompra.gov.co/sites/cce_public/files/cce_documents/cce-eicp-ma-04._manual_requisitos_habilitantes_v3_29-09-2023.pdf".data

/-- URL of the second catalog entry. -/
def URL1 : Str :=
  "https://www.colombiacompra.gov.co/wp-content/uploads/2024/10/cce-sec-gi-18guiasecopii_eepclicitacionpublica20-04-2022.pdf".data

/-- URL of the third catalog entry. -/
def URL2 : Str :=
  "https://www.colombiacompra.gov.co/wp-content/uploads/2024/08/20151115_pliego_de_condiciones_para_contrato_de_obra_publica_v2_0.pdf".data

/-- URL of the fourth catalog entry. -/
def URL3 : Str :=
  "https://formacionvirtual.colombiacompra.gov.co/pluginfile.php/9193/mod_folder/content/0/M%C3%B3dulo%20VI/Gu%C3%ADa%20-%20Gesti%C3%B3n%20Contractual.pdf".data

/-- The fixed catalog `TRUSTED_PDFS` (api.py lines 77–106), verbatim. -/
def TRUSTED_PDFS : List Candidate :=
  [⟨"Manual para determinar y verificar los requisitos habilitantes".data,
      URL0, "Colombia Compra Eficiente".data,
      ["requisitos".data, "habilitantes".data, "capacidad".data,
        "juridica".data, "jurídica".data, "financiera".data,
        "organizacional".data, "experiencia".data, "inhabilidades".data,
        "contrato".data]⟩,
    ⟨"Guía de criterios de evaluación".data,
      URL1, "Colombia Compra Eficiente".data,
      ["criterios".data, "evaluacion".data, "evaluación".data,
        "ponderacion".data, "ponderación".data, "metodologia".data,
        "metodología".data, "precio".data, "experiencia".data]⟩,
    ⟨"Pliego de Condiciones Tipo – Obra Pública v2.0".data,
      URL2, "Colombia Compra Eficiente".data,
      ["pliego".data, "obra".data, "requisitos".data, "plazo".data,
        "garantias".data, "garantías".data, "ejecucion".data,
        "ejecución".data, "condiciones".data, "pagos".data]⟩,
    ⟨"Guía – Gestión Contractual (SECOP II)".data,
      URL3, "Colombia Compra Eficiente".data,
      ["gestion".data, "gestión".data, "contractual".data, "pagos".data,
        "plazos".data, "validación".data, "facturas".data,
        "parafiscales".data, "cronograma".data, "secop".data,
        "secop ii".data]⟩]

/-- The keyword score of one candidate against the lowercased question `q`:
`sum(1 for kw in item["keywords"] if kw.lower() in q)` (api.py line 137). -/
def candScore (q : Str) (item : Candidate) : Nat :=
  (item.keywords.filter (fun kw => containsSub q (pyLower kw))).length

/-- Stable insertion of a scored candidate into a descending-sorted list: the
inserted (originally earlier) element goes before every element of equal or
smaller score. -/
def insertScoredDesc (x : Nat × Candidate) :
    List (Nat × Candidate) → List (Nat × Candidate)
  | [] => [x]
  | y :: ys => if x.1 < y.1 then y :: insertScoredDesc x ys else x :: y :: ys

/-- Python `scored.sort(reverse=True, key=lambda x: x[0])` (api.py line 139):
a stable sort by descending score, modelled as a stable insertion sort. -/
def sortScoredDesc : List (Nat × Candidate) → List (Nat × Candidate)
  | [] => []
  | x :: xs => insertScoredDesc x (sortScoredDesc xs)

/-- `_pick_web_candidates(question, need)` (api.py lines 133–141): score each
catalog entry, sort by descending score (stable), keep the entries with
score > 0, and truncate to the first `need` — NOTE: the truncation happens
before any already-ingested filter. -/
def pick_web_candidates (question : Str) (need : Nat) : List Candidate :=
  let q := pyLower question
  let scored := TRUSTED_PDFS.map (fun item => (candScore q item, item))
  let sorted := sortScoredDesc scored
  ((sorted.filter (fun p => 0 < p.1)).map Prod.snd).take need

/-- A row of the `documents` table as the controller sees it; the metadata
JSON round-trip of `insert_document`/`list_documents` is modelled as the
key-value map it encodes (notably `{"tipo": ..., "url": ...}`). -/
structure DocRow where
  docId : Nat
  titulo : Str
  entidad : Str
  metadata : List (Str × Str)
deriving DecidableEq

/-- The mutable application state the controller touches: the `documents`
and `chunks` tables and the next document id. -/
structure AppState where
  docs : List DocRow
  chunks : ChunkTable
  nextDocId : Nat
deriving DecidableEq

/-- `insert_document(titulo, entidad, archivo, metadata)`
(src/db_sqlite.py lines 70–79): append a row, return its fresh id. -/
def insert_document (st : AppState) (titulo entidad : Str)
    (metadata : List (Str × Str)) : AppState × Nat :=
  (⟨st.docs ++ [⟨st.nextDocId, titulo, entidad, metadata⟩], st.chunks,
    st.nextDocId + 1⟩, st.nextDocId)

/-- `_existing_urls_set()` (api.py lines 112–130): the stripped `url`
metadata values of the stored documents whose `url` entry is truthy
(present and non-empty). -/
def existing_urls_set (docs : List DocRow) : List Str :=
  docs.filterMap (fun d =>
    match regGet d.metadata "url".data with
    | some u => if u.isEmpty then none else some (pyStrip u)
    | none => none)

/-- `split_text(txt)` with the source's default parameters
`max_chars = 1000`, `overlap = 150`: since `overlap < max_chars`, fuel
`len + 1` always suffices (`splitRun_default_isSome`), so the `getD` default
is never taken. -/
def split_text_def (txt : Str) : List Str :=
  (splitRun txt 1000 150 ((normalizeText txt).length + 1)).getD []

theorem splitRun_default_isSome (txt : Str) :
    splitRun txt 1000 150 ((normalizeText txt).length + 1)
      = some (split_text_def txt) := by
  rw [split_text_def]
  rw [splitRun]
  by_cases hemp : txt.isEmpty
  · rw [if_pos hemp]
    rfl
  · rw [if_neg hemp]
    obtain ⟨parts, hparts⟩ :=
      splitIter_terminates (normalizeText txt) 1000 150 (by omega)
        ((normalizeText txt).length + 1) ⟨0, []⟩ (by simp only; omega)
    rw [hparts]
    rfl

theorem splitRel_split_text_def (txt : Str) :
    splitRel txt 1000 150 (split_text_def txt) :=
  ⟨(normalizeText txt).length + 1, splitRun_default_isSome txt⟩

/-- Outcome of `_auto_ingest_from_web`: the returned count, the state after
the loop, and (as an observation of the loop's behaviour) the URLs for which
`requests.get` was attempted, in order. -/
structure IngestResult where
  count : Nat
  state : AppState
  attempted : List Str
deriving DecidableEq

/-- The candidate loop of `_auto_ingest_from_web` (api.py lines 148–168).
`oracle url = some txt` models a successful `requests.get` with HTTP 200 and
a PDF content type whose pages extract to `txt`; `oracle url = none` models
every other outcome (bad status, wrong content type, or an exception —
swallowed by the `except: continue`).  `embedTexts` models `embed_texts`,
one vector per chunk.  On success the document row is inserted first; if the
extracted text yields no chunks the loop continues with the document row
kept but no count increment (`if not chunks: continue`); otherwise the
chunks are inserted, the URL joins the in-memory set, the count increments,
and the loop stops once `count >= min_docs`. -/
def auto_ingest_loop (oracle : Str → Option Str) (embedTexts : Str → List ℚ)
    (minDocs : Nat) :
    List Candidate → List Str → AppState → Nat → IngestResult
  | [], _, st, count => ⟨count, st, []⟩
  | cand :: rest, existing, st, count =>
      if cand.url.isEmpty = true ∨ cand.url ∈ existing then
        auto_ingest_loop oracle embedTexts minDocs rest existing st count
      else
        match oracle cand.url with
        | none =>
            let r := auto_ingest_loop oracle embedTexts minDocs rest existing
              st count
            ⟨r.count, r.state, cand.url :: r.attempted⟩
        | some txt =>
            let inserted := insert_document st cand.titulo cand.entidad
              [("tipo".data, "pdf".data), ("url".data, cand.url)]
            let chunksL := split_text_def txt
            if chunksL.isEmpty then
              let r := auto_ingest_loop oracle embedTexts minDocs rest existing
                inserted.1 count
              ⟨r.count, r.state, cand.url :: r.attempted⟩
            else
              let st2 : AppState :=
                ⟨inserted.1.docs,
                  (insert_chunks inserted.1.chunks inserted.2 chunksL
                    (chunksL.map embedTexts)).1,
                  inserted.1.nextDocId⟩
              if minDocs ≤ count + 1 then ⟨count + 1, st2, [cand.url]⟩
              else
                let r := auto_ingest_loop oracle embedTexts minDocs rest
                  (cand.url :: existing) st2 (count + 1)
                ⟨r.count, r.state, cand.url :: r.attempted⟩

/-- `_auto_ingest_from_web(question, min_docs)` (api.py lines 144–169):
compute the stored URL set, pick the candidates, run the loop from count 0.
The Python function returns only the count; the model also exposes the
resulting state and the attempted URLs. -/
def auto_ingest_from_web (oracle : Str → Option Str)
    (embedTexts : Str → List ℚ) (st : AppState) (question : Str)
    (minDocs : Nat) : IngestResult :=
  auto_ingest_loop oracle embedTexts minDocs
    (pick_web_candidates question minDocs) (existing_urls_set st.docs) st 0

/-! ### Claim C2: candidate selection vs. the already-ingested filter -/

/-- The selection described by the claim (and one reading of the spec): the
highest-scoring positive-score candidates *among those not already ingested
by URL* — i.e. the not-ingested filter applied before the truncation to
`need`.  This is the claim's version, written for comparison with the
code's `pick_web_candidates`, which truncates first. -/
def spec_pick_not_ingested (question : Str) (need : Nat)
    (existing : List Str) : List Candidate :=
  let q := pyLower question
  let scored := TRUSTED_PDFS.map (fun item => (candScore q item, item))
  let sorted := sortScoredDesc scored
  (((sorted.filter (fun p => 0 < p.1)).map Prod.snd).filter
    (fun c => !decide (c.url ∈ existing))).take need

theorem auto_ingest_loop_attempted (oracle : Str → Option Str)
    (embedTexts : Str → List ℚ) (minDocs : Nat) :
    ∀ (cands : List Candidate) (existing : List Str) (st : AppState)
      (count : Nat),
      ∀ u ∈ (auto_ingest_loop oracle embedTexts minDocs cands existing st
          count).attempted,
        u ∈ cands.map Candidate.url ∧ u ∉ existing := by
  intro cands
  induction cands with
  | nil =>
    intro existing st count u hu
    cases hu
  | cons cand rest ih =>
    intro existing st count u hu
    rw [auto_ingest_loop] at hu
    split at hu
    · obtain ⟨h1, h2⟩ := ih existing st count u hu
      exact ⟨List.mem_cons_of_mem _ h1, h2⟩
    · rename_i hskip
      push_neg at hskip
      obtain ⟨_, hnotin⟩ := hskip
      rcases horacle : oracle cand.url with _ | txt
      · rw [horacle] at hu
        simp only at hu
        rcases List.mem_cons.mp hu with h | h
        · subst h
          exact ⟨List.mem_cons_self _ _, hnotin⟩
        · obtain ⟨h1, h2⟩ := ih existing _ count u h
          exact ⟨List.mem_cons_of_mem _ h1, h2⟩
      · rw [horacle] at hu
        simp only at hu
        split at hu
        · rcases List.mem_cons.mp hu with h | h
          · subst h
            exact ⟨List.mem_cons_self _ _, hnotin⟩
          · obtain ⟨h1, h2⟩ := ih existing _ count u h
            exact ⟨List.mem_cons_of_mem _ h1, h2⟩
        · split at hu
          · rcases List.mem_singleton.mp hu with h
            subst h
            exact ⟨List.mem_cons_self _ _, hnotin⟩
          · rcases List.mem_cons.mp hu with h | h
            · subst h
              exact ⟨List.mem_cons_self _ _, hnotin⟩
            · obtain ⟨h1, h2⟩ := ih (cand.url :: existing) _ (count + 1) u h
              exact ⟨List.mem_cons_of_mem _ h1,
                fun hc => h2 (List.mem_cons_of_mem _ hc)⟩

theorem auto_ingest_loop_all_ingested (oracle : Str → Option Str)
    (embedTexts : Str → List ℚ) (minDocs : Nat) :
    ∀ (cands : List Candidate) (existing : List Str) (st : AppState)
      (count : Nat),
      (∀ c ∈ cands, c.url ∈ existing) →
      auto_ingest_loop oracle embedTexts minDocs cands existing st count
        = ⟨count, st, []⟩ := by
  intro cands
  induction cands with
  | nil =>
    intro existing st count _
    rfl
  | cons cand rest ih =>
    intro existing st count hall
    rw [auto_ingest_loop,
      if_pos (Or.inr (hall cand (List.mem_cons_self cand rest)))]
    exact ih existing st count (fun c hc => hall c (List.mem_cons_of_mem _ hc))

/-- C2 (counterexample).  Question `"requisitos habilitantes"`, one document
already ingested from the first catalog URL, a reachable PDF source for every
URL, `need = 1`.  The claim's selection (ingested filter before truncation)
would pick the third catalog entry (score 1 > 0, not ingested), but the code
truncates to the top scorer first, finds it already ingested, and fetches
nothing: no URL is attempted and the count is 0 — the already-ingested
top scorer displaced the available lower scorer. -/
theorem C2_selection_displacement_counterexample :
    (spec_pick_not_ingested "requisitos habilitantes".data 1
        (existing_urls_set
          [⟨1, "Manual".data, "CCE".data,
            [("tipo".data, "pdf".data), ("url".data, URL0)]⟩])).map
        Candidate.url = [URL2]
      ∧ (auto_ingest_from_web (fun _ => some "Texto del PDF.".data)
          (fun _ => [1])
          ⟨[⟨1, "Manual".data, "CCE".data,
            [("tipo".data, "pdf".data), ("url".data, URL0)]⟩], ⟨[], 1⟩, 2⟩
          "requisitos habilitantes".data 1).attempted = []
      ∧ (auto_ingest_from_web (fun _ => some "Texto del PDF.".data)
          (fun _ => [1])
          ⟨[⟨1, "Manual".data, "CCE".data,
            [("tipo".data, "pdf".data), ("url".data, URL0)]⟩], ⟨[], 1⟩, 2⟩
          "requisitos habilitantes".data 1).count = 0 := by
  refine ⟨by decide, by decide, by decide⟩

/-- C2 (amended).  The controller selects up to `need` highest-scoring
positive-score candidates *before* looking at ingestion status; within that
selection, already-ingested URLs are skipped without replacement.  So every
attempted fetch is for a URL of the selected candidates that is not already
ingested, and when every selected candidate is already ingested nothing is
fetched and the state is unchanged — even if a lower-scoring, not-yet-
ingested candidate exists outside the truncated selection. -/
theorem C2_selection_amended (oracle : Str → Option Str)
    (embedTexts : Str → List ℚ) (st : AppState) (question : Str)
    (need : Nat) :
    (∀ u ∈ (auto_ingest_from_web oracle embedTexts st question need).attempted,
        u ∈ (pick_web_candidates question need).map Candidate.url
          ∧ u ∉ existing_urls_set st.docs)
      ∧ ((∀ c ∈ pick_web_candidates question need,
            c.url ∈ existing_urls_set st.docs) →
          auto_ingest_from_web oracle embedTexts st question need
            = ⟨0, st, []⟩) := by
  constructor
  · intro u hu
    exact auto_ingest_loop_attempted oracle embedTexts need
      (pick_web_candidates question need) (existing_urls_set st.docs) st 0 u hu
  · intro hall
    exact auto_ingest_loop_all_ingested oracle embedTexts need
      (pick_web_candidates question need) (existing_urls_set st.docs) st 0 hall

/-- C2 (witness): with an empty store and an unreachable source, the one URL
attempted for `"requisitos habilitantes"` is the selected top scorer's and
was not ingested; and in the counterexample state, where the whole selection
is already ingested, the controller does nothing. -/
theorem C2_selection_amended_witness :
    (URL0 ∈ (auto_ingest_from_web (fun _ => none) (fun _ => [1])
          ⟨[], ⟨[], 1⟩, 1⟩ "requisitos habilitantes".data 1).attempted
        ∧ (URL0 ∈ (pick_web_candidates "requisitos habilitantes".data 1).map
              Candidate.url
            ∧ URL0 ∉ existing_urls_set ([] : List DocRow)))
      ∧ ((∀ c ∈ pick_web_candidates "requisitos habilitantes".data 1,
            c.url ∈ existing_urls_set
              [⟨1, "Manual".data, "CCE".data,
                [("tipo".data, "pdf".data), ("url".data, URL0)]⟩])
          ∧ auto_ingest_from_web (fun _ => some "Texto del PDF.".data)
              (fun _ => [1])
              ⟨[⟨1, "Manual".data, "CCE".data,
                [("tipo".data, "pdf".data), ("url".data, URL0)]⟩], ⟨[], 1⟩, 2⟩
              "requisitos habilitantes".data 1
            = ⟨0, ⟨[⟨1, "Manual".data, "CCE".data,
                [("tipo".data, "pdf".data), ("url".data, URL0)]⟩], ⟨[], 1⟩, 2⟩,
                []⟩) := by
  constructor
  · refine ⟨by decide, ?_⟩
    exact (C2_selection_amended (fun _ => none) (fun _ => [1])
      ⟨[], ⟨[], 1⟩, 1⟩ "requisitos habilitantes".data 1).1 URL0 (by decide)
  · refine ⟨by decide, ?_⟩
    exact (C2_selection_amended (fun _ => some "Texto del PDF.".data)
      (fun _ => [1])
      ⟨[⟨1, "Manual".data, "CCE".data,
        [("tipo".data, "pdf".data), ("url".data, URL0)]⟩], ⟨[], 1⟩, 2⟩
      "requisitos habilitantes".data 1).2 (by decide)

/-! ### The question-answering endpoint `ask_ep` (api.py lines 1690–1701) -/

/-- A `matches` entry of the endpoint's response:
`{score, doc_id, titulo, chunk_ord, text_preview}`. -/
structure MatchOut where
  score : ℚ
  docId : Nat
  titulo : Str
  chunkOrd : Nat
  textPreview : Str
deriving DecidableEq

/-- The endpoint's response `{ok, matches, answer}` (the optional SECOP
fields do not occur on the branches the claims concern). -/
structure AskResponse where
  ok : Bool
  matchesList : List MatchOut
  answer : Str
deriving DecidableEq

/-- Answer of the empty-query guard (api.py line 1694). -/
def EMPTY_QUERY_MSG : Str := "Por favor, escribe una pregunta.".data

/-- Answer of the empty-corpus guard (api.py line 1700). -/
def NO_DOCS_MSG : Str :=
  "No hay documentos en la base de datos para responder. La búsqueda automática no encontró fuentes relevantes.".data

/-- `fetch_all_vectors()` against the application state: the inner join of
`chunks` with `documents` (rows whose document exists, carrying its title),
ordered by `doc_id, ord`. -/
def joined_vectors (st : AppState) : List ChunkTup :=
  fetch_all_vectors (st.chunks.rows.filterMap (fun c =>
    (st.docs.find? (fun d => decide (d.docId = c.docId))).map
      (fun d => ⟨c.chunkId, c.docId, c.ord, c.text, c.emb, d.titulo⟩)))

/-- `ask_ep(payload)` (api.py lines 1690–1701), up to the two guards the
claim concerns: strip the query and answer `EMPTY_QUERY_MSG` if nothing
remains; otherwise run `_auto_ingest_from_web(q, min_docs=1)`, fetch all
vectors, and answer `NO_DOCS_MSG` if the store is still empty.  Everything
after the guards (api.py lines 1703–1784: query embedding, ranking, context,
SECOP enrichment, answer synthesis, match assembly) is the function
parameter `answerPath`, applied to the post-ingestion state, the stripped
query and the fetched items — quantifying over it proves the guard results
are produced without invoking any of it. -/
def ask_ep (oracle : Str → Option Str) (embedTexts : Str → List ℚ)
    (answerPath : AppState → Str → List ChunkTup → AskResponse)
    (st : AppState) (query : Str) : AskResponse :=
  let q := pyStrip query
  if q.isEmpty then ⟨true, [], EMPTY_QUERY_MSG⟩
  else
    let st' := (auto_ingest_from_web oracle embedTexts st q 1).state
    let items := joined_vectors st'
    if items.isEmpty then ⟨true, [], NO_DOCS_MSG⟩
    else answerPath st' q items

/-- C5.  With an empty corpus and the query `"test"` (which matches no
catalog keyword, so auto-ingestion selects nothing), the endpoint returns
`{ok: true, matches: [], answer: NO_DOCS_MSG}` for every possible network
oracle, embedder and answer path — i.e. without invoking the model-backed or
heuristic answering; and a whitespace-only query returns
`{ok: true, matches: [], answer: EMPTY_QUERY_MSG}`, never an error. -/
theorem C5_empty_corpus_and_query_guards :
    (∀ (oracle : Str → Option Str) (embedTexts : Str → List ℚ)
        (answerPath : AppState → Str → List ChunkTup → AskResponse),
      ask_ep oracle embedTexts answerPath ⟨[], ⟨[], 1⟩, 1⟩ "test".data
        = ⟨true, [], NO_DOCS_MSG⟩)
      ∧ (∀ (oracle : Str → Option Str) (embedTexts : Str → List ℚ)
          (answerPath : AppState → Str → List ChunkTup → AskResponse)
          (st : AppState) (query : Str), pyStrip query = [] →
        ask_ep oracle embedTexts answerPath st query
          = ⟨true, [], EMPTY_QUERY_MSG⟩) := by
  constructor
  · intro oracle embedTexts answerPath
    rw [ask_ep]
    have hstrip : pyStrip "test".data = "test".data := by decide
    rw [hstrip]
    rw [if_neg (by decide)]
    have hpick : pick_web_candidates "test".data 1 = [] := by decide
    have hingest : auto_ingest_from_web oracle embedTexts ⟨[], ⟨[], 1⟩, 1⟩
        "test".data 1 = ⟨0, ⟨[], ⟨[], 1⟩, 1⟩, []⟩ := by
      rw [auto_ingest_from_web, hpick]
      rfl
    rw [hingest]
    have hjoin : joined_vectors ⟨[], ⟨[], 1⟩, 1⟩ = [] := by
      rw [joined_vectors]
      show fetch_all_vectors (List.filterMap _ []) = []
      rw [List.filterMap_nil, fetch_all_vectors, List.mergeSort_nil]
    simp only [hjoin, List.isEmpty_nil, if_true]
  · intro oracle embedTexts answerPath st query hstrip
    rw [ask_ep, hstrip]
    rfl

/-- C5 (witness): the whitespace-only query `"   "` strips to nothing and
gets the retry prompt with `ok = true`. -/
theorem C5_empty_corpus_and_query_guards_witness :
    pyStrip "   ".data = []
      ∧ ask_ep (fun _ => none) (fun _ => []) (fun _ _ _ => ⟨true, [], []⟩)
          ⟨[], ⟨[], 1⟩, 1⟩ "   ".data
        = ⟨true, [], EMPTY_QUERY_MSG⟩ :=
  ⟨by decide,
    C5_empty_corpus_and_query_guards.2 (fun _ => none) (fun _ => [])
      (fun _ _ _ => ⟨true, [], []⟩) ⟨[], ⟨[], 1⟩, 1⟩ "   ".data (by decide)⟩

/-! ### The offline embedder seed (`_cheap_embed`, src/embeddings.py) -/

/-- The generator seed of `_cheap_embed(s)`: `abs(hash(s)) % (2**32)`
(src/embeddings.py line 24).  Python's built-in `hash` on `str` is SipHash
keyed by a per-process salt (`PYTHONHASHSEED`), so the process's string-hash
function is an explicit parameter of the model. -/
def cheap_seed (pyHash : Str → Int) (s : Str) : Nat :=
  (pyHash s).natAbs % 2 ^ 32

/-- `_cheap_embed(s, dim)` (src/embeddings.py lines 23–27): seed
`np.random.default_rng` with `cheap_seed`, draw `dim` standard normals,
L2-normalize.  The generator-and-normalization pipeline is one fixed
deterministic function of the seed, abstracted as the parameter `gauss`. -/
def cheap_embed (gauss : Nat → List ℚ) (pyHash : Str → Int) (s : Str) :
    List ℚ :=
  gauss (cheap_seed pyHash s)

/-- `embed_text(text)` in offline mode (src/embeddings.py lines 37–43, no
OpenAI client configured): empty text embeds as `_cheap_embed("")`, other
text as `_cheap_embed(text)`. -/
def embed_text (gauss : Nat → List ℚ) (pyHash : Str → Int) (s : Str) :
    List ℚ :=
  if s.isEmpty then cheap_embed gauss pyHash []
  else cheap_embed gauss pyHash s

/-- C1 (code divergence).  The offline embedding is a function of the
process's string hash: two runs whose `hash` agrees on `s` embed `s`
identically — but Python's salted `str` hash does not agree across
processes.  The two integers below are `hash("test")` as actually observed
under `PYTHONHASHSEED=1` and `PYTHONHASHSEED=2`; they induce different
generator seeds, so the spec's "same vector across runs and processes" fails
while within-process determinism holds. -/
theorem C1_seed_depends_on_process_hash :
    (∀ (gauss : Nat → List ℚ) (h₁ h₂ : Str → Int) (s : Str), h₁ s = h₂ s →
        cheap_embed gauss h₁ s = cheap_embed gauss h₂ s)
      ∧ cheap_seed (fun _ => 3572239838077690008) "test".data
          ≠ cheap_seed (fun _ => -8766068432769472826) "test".data := by
  constructor
  · intro gauss h₁ h₂ s hagree
    rw [cheap_embed, cheap_embed, cheap_seed, cheap_seed, hagree]
  · decide

/-- C1 (witness): two distinct hash functions that agree on `"x"` produce
the same embedding of `"x"`. -/
theorem C1_seed_depends_on_process_hash_witness :
    ((fun _ : Str => (7 : Int)) "x".data
        = (fun s : Str => if s = "x".data then (7 : Int) else 8) "x".data)
      ∧ cheap_embed (fun n => [(n : ℚ)]) (fun _ : Str => (7 : Int)) "x".data
        = cheap_embed (fun n => [(n : ℚ)])
            (fun s : Str => if s = "x".data then (7 : Int) else 8) "x".data :=
  ⟨by decide,
    C1_seed_depends_on_process_hash.1 (fun n => [(n : ℚ)])
      (fun _ : Str => (7 : Int))
      (fun s : Str => if s = "x".data then (7 : Int) else 8) "x".data
      (by decide)⟩

end RAG
